import Mathlib

/-!
Verification of the audio ring buffer and level-analysis core of
`mqtt-noisemeter` (`src/main.py`, class `NoiseMonitor`).

The shallow embedding models:
* the circular buffer written by `NoiseMonitor.audio_callback`
  (`main.py` lines 119-131) as a `RingState` (a list of samples plus the
  write index) transformed by `audioCallback`;
* `NoiseMonitor.get_recent_audio` (lines 133-151) as `getRecentAudio`;
* `NoiseMonitor.calculate_db_from_samples` (lines 153-170) as
  `calculate_db_from_samples`, with float arithmetic idealised over `ℝ`
  and sample values over `ℚ`;
* `NoiseMonitor.analyze_audio` (lines 172-205) as `analyzeSamples`,
  taking the window returned by `get_recent_audio` as a parameter;
* the warm-up logic of `NoiseMonitor.processing_loop` (lines 262-279) as
  the step function `tick`;
* the lock usage of the callback and of `get_recent_audio` as explicit
  action traces (`audioCallbackTrace`, `getRecentAudioTrace`).

Python's `int(x)` truncates toward zero and `x % m` returns a value in
`[0, m)` for `m > 0`; they are modelled by `pyInt` and `Int.emod`.
-/

/-- Python's `int()` applied to a real quantity: truncation toward zero
(floor for nonnegative arguments, ceiling for negative ones). -/
def pyInt (q : ℚ) : ℤ := if 0 ≤ q then ⌊q⌋ else ⌈q⌉

theorem pyInt_nonneg {q : ℚ} (h : 0 ≤ q) : 0 ≤ pyInt q := by
  rw [pyInt, if_pos h]
  exact Int.floor_nonneg.mpr h

theorem pyInt_nonpos {q : ℚ} (h : q ≤ 0) : pyInt q ≤ 0 := by
  rw [pyInt]
  split
  · exact (Int.floor_le_floor h).trans (by simp)
  · exact Int.ceil_le.mpr (by exact_mod_cast h)

theorem pyInt_natCast (n : ℕ) : pyInt (n : ℚ) = n := by
  rw [pyInt, if_pos (by positivity), Int.floor_natCast]

/-- The state of the circular buffer: `self.audio_buffer` (a fixed-size
array of samples) together with `self.write_index`. -/
structure RingState where
  buffer : List ℚ
  writeIndex : ℕ
deriving DecidableEq, Repr

/-- The buffer right after `setup_audio_device`: `np.zeros(buffer_size)`
with `write_index = 0`. -/
def initState (cap : ℕ) : RingState := ⟨List.replicate cap 0, 0⟩

/-- Numpy slice assignment `buf[i : i + data.length] = data` (valid when
the range lies inside the buffer: the result keeps the length of `buf`
exactly when `i + data.length ≤ buf.length`). -/
def listSetRange (buf : List ℚ) (i : ℕ) (data : List ℚ) : List ℚ :=
  buf.take i ++ data ++ buf.drop (i + data.length)

/-- Outcome of one `audio_callback` invocation: either the updated ring
state, or the state left behind when the second numpy slice assignment
raises a broadcast `ValueError` (the exception escapes the callback; the
`self.write_index = ...` line is never reached, so `err` carries the
buffer after the first slice assignment with the old write index). -/
inductive WriteResult where
  | ok (s : RingState)
  | err (s : RingState)
deriving DecidableEq, Repr

/-- `NoiseMonitor.audio_callback`, lines 119-131 of `main.py` (the write
to the circular buffer; mono reduction and the overflow counter are
orthogonal to the buffer and omitted).  `end_index = write_index + frames`;
if `end_index <= buffer_size` the block is stored in place, otherwise it is
split at `first_part = buffer_size - write_index`.  The second slice
assignment `audio_buffer[:end_index - buffer_size] = mono_data[first_part:]`
is only well-formed when `end_index - buffer_size ≤ buffer_size`; otherwise
numpy raises, which the `err` branch records. -/
def audioCallback (cap : ℕ) (s : RingState) (mono : List ℚ) : WriteResult :=
  let endIndex := s.writeIndex + mono.length
  if endIndex ≤ cap then
    .ok ⟨listSetRange s.buffer s.writeIndex mono, endIndex % cap⟩
  else
    let firstPart := cap - s.writeIndex
    let buf1 := listSetRange s.buffer s.writeIndex (mono.take firstPart)
    if endIndex - cap ≤ cap then
      .ok ⟨listSetRange buf1 0 (mono.drop firstPart), endIndex % cap⟩
    else
      .err ⟨buf1, s.writeIndex⟩

/-- A sequence of `audio_callback` invocations, stopping at the first one
whose slice assignment raises. -/
def writeSeq (cap : ℕ) (s : RingState) : List (List ℚ) → WriteResult
  | [] => .ok s
  | d :: ds =>
    match audioCallback cap s d with
    | .ok s' => writeSeq cap s' ds
    | .err p => .err p

/-- The number of samples `get_recent_audio` asks for:
`samples_needed = int(sample_rate * duration_seconds)`, clamped to the
buffer size when it exceeds it (lines 135-137). -/
def samplesNeeded (cap rate : ℕ) (seconds : ℚ) : ℤ :=
  let n0 := pyInt ((rate : ℚ) * seconds)
  if (cap : ℤ) < n0 then (cap : ℤ) else n0

/-- `start_index = (write_index - samples_needed) % buffer_size`
(line 141), with Python's nonnegative `%`. -/
def startIndex (cap w : ℕ) (n : ℤ) : ℤ := ((w : ℤ) - n) % (cap : ℤ)

/-- `NoiseMonitor.get_recent_audio`, lines 133-151 of `main.py`:
either the single contiguous copy `audio_buffer[start_index:write_index]`
or the wraparound concatenation of `audio_buffer[start_index:]` and
`audio_buffer[:write_index]`. -/
def getRecentAudio (cap rate : ℕ) (s : RingState) (seconds : ℚ) : List ℚ :=
  if startIndex cap s.writeIndex (samplesNeeded cap rate seconds) < (s.writeIndex : ℤ) then
    (s.buffer.take s.writeIndex).drop
      (startIndex cap s.writeIndex (samplesNeeded cap rate seconds)).toNat
  else
    s.buffer.drop (startIndex cap s.writeIndex (samplesNeeded cap rate seconds)).toNat
      ++ s.buffer.take s.writeIndex

/-- The buffer contents read in ring order, from the oldest slot (the one
at the write cursor) to the newest (the one just before it). -/
def ringContents (s : RingState) : List ℚ :=
  s.buffer.drop s.writeIndex ++ s.buffer.take s.writeIndex

/-- The last `n` elements of a list. -/
def lastN (n : ℕ) (l : List ℚ) : List ℚ := l.drop (l.length - n)

/-- One iteration of the warm-up logic in `NoiseMonitor.processing_loop`
(lines 262-279).  `ready` is `self.ready_to_publish`, `elapsed` is
`time.time() - self.stream_start_time`, `window` is
`self.analysis_window`.  The first component of the result is the new
value of `ready_to_publish`; the second is whether this iteration reached
the `analyze_audio` / `publish_data` section (warming iterations instead
run `shutdown_event.wait(1.0)` and `continue`). -/
def tick (ready : Bool) (elapsed window : ℚ) : Bool × Bool :=
  if ready = false then
    if window ≤ elapsed then (true, true) else (false, false)
  else (true, true)

/-- Atomic actions on the shared buffer state, for the lock-discipline
model of `audio_callback` and `get_recent_audio`. -/
inductive BufAction where
  /-- entering `with self.buffer_lock:` -/
  | lockAcquire
  /-- leaving `with self.buffer_lock:` -/
  | lockRelease
  /-- a copy into or out of `self.audio_buffer` / an update of
  `self.write_index` -/
  | bufAccess
deriving DecidableEq, Repr

/-- The actions `audio_callback` performs on the shared buffer, in source
order (lines 119-131): one slice assignment in the no-wraparound case,
two in the wraparound case, then the `write_index` update.  The callback
never touches `self.buffer_lock`. -/
def audioCallbackTrace (wrap : Bool) : List BufAction :=
  (if wrap then [BufAction.bufAccess, BufAction.bufAccess] else [BufAction.bufAccess])
    ++ [BufAction.bufAccess]

/-- The actions `get_recent_audio` performs (lines 139-151): the whole
body, including both copies of the wraparound case, sits inside
`with self.buffer_lock:`. -/
def getRecentAudioTrace (wrap : Bool) : List BufAction :=
  [BufAction.lockAcquire]
    ++ (if wrap then [BufAction.bufAccess, BufAction.bufAccess] else [BufAction.bufAccess])
    ++ [BufAction.lockRelease]

/-- Checks that every buffer access in the trace happens while the lock
is held, starting from `depth` outstanding acquisitions. -/
def guardedFrom : List BufAction → ℕ → Bool
  | [], _ => true
  | BufAction.lockAcquire :: r, d => guardedFrom r (d + 1)
  | BufAction.lockRelease :: r, d => guardedFrom r (d - 1)
  | BufAction.bufAccess :: r, d => decide (0 < d) && guardedFrom r d

/-- Every buffer access in the trace is protected by the lock. -/
def lockGuarded (tr : List BufAction) : Bool := guardedFrom tr 0

/-- `chunk_size = int(self.sample_rate * 0.1)` (line 181 of `main.py`).
For every sample rate the double-precision product `sample_rate * 0.1`
truncates to the same integer as the exact product, so the exact rational
is used. -/
def chunkSize (rate : ℕ) : ℕ := (pyInt ((rate : ℚ) * (1 / 10))).toNat

/-- Truncating `sample_rate * 0.1` is floor division of the rate by ten. -/
theorem chunkSize_eq (rate : ℕ) : chunkSize rate = rate / 10 := by
  rw [chunkSize, pyInt, if_pos (by positivity)]
  rw [show ((rate : ℚ) * (1 / 10)) = (rate : ℚ) / ((10 : ℕ) : ℚ) by push_cast; ring]
  rw [Int.floor_toNat, Nat.floor_div_nat, Nat.floor_natCast]

/-- Fuel-indexed helper for the chunking loop
`for i in range(0, len(samples), chunk_size)` (lines 184-185): each
iteration takes `samples[i : i + chunk_size]` and continues past it.  The
fuel bounds the number of iterations; `chunksOf` supplies enough fuel for
every positive chunk size. -/
def chunksOfAux (cs : ℕ) : ℕ → List ℚ → List (List ℚ)
  | 0, _ => []
  | _, [] => []
  | fuel + 1, l => l.take cs :: chunksOfAux cs fuel (l.drop cs)

/-- The chunks `samples[i : i + cs]` for `i = 0, cs, 2*cs, ...` as long as
samples remain. -/
def chunksOf (cs : ℕ) (l : List ℚ) : List (List ℚ) := chunksOfAux cs l.length l

/-- The filter `len(chunk) >= chunk_size // 2` (line 186): Python `//` is
floor division. -/
def validChunk (cs : ℕ) (c : List ℚ) : Bool := cs / 2 ≤ c.length

/-- The chunks whose decibel value enters `db_values` (lines 184-188). -/
def validChunks (samples : List ℚ) (rate : ℕ) : List (List ℚ) :=
  (chunksOf (chunkSize rate) samples).filter (validChunk (chunkSize rate))

/-- `np.mean` over exact rationals (empty input never reaches this in the
modelled code paths). -/
def listMean (l : List ℚ) : ℚ := l.sum / l.length

/-- The mean square of the DC-removed samples:
`np.mean((samples - np.mean(samples)) ** 2)` (lines 159-162). -/
def meanSquare (l : List ℚ) : ℚ :=
  listMean ((l.map (fun x => x - listMean l)).map (fun x => x * x))

/-- `rms = np.sqrt(np.mean(samples ** 2))` after DC removal (line 162),
idealised over the reals. -/
noncomputable def rmsOf (l : List ℚ) : ℝ := Real.sqrt (meanSquare l)

open Classical in
/-- `NoiseMonitor.calculate_db_from_samples`, lines 153-170 of `main.py`:
`-80.0` for an empty array; otherwise remove the DC offset, compute the
RMS, and return `20 * log10(rms)` when `rms > 1e-10`, else the `-80.0`
floor. -/
noncomputable def calculate_db_from_samples (samples : List ℚ) : ℝ :=
  if samples.length = 0 then -80
  else if (1e-10 : ℝ) < rmsOf samples then 20 * Real.logb 10 (rmsOf samples)
  else -80

/-- The statistics dictionary returned by `analyze_audio` (lines 193-199). -/
structure LevelStats where
  min_db : ℝ
  max_db : ℝ
  avg_db : ℝ
  duration : ℚ
  overflows : ℕ

/-- `np.min` over a nonempty list of reals (left fold from the head). -/
noncomputable def listMinR : List ℝ → ℝ
  | [] => 0
  | x :: xs => xs.foldl min x

/-- `np.max` over a nonempty list of reals (left fold from the head). -/
noncomputable def listMaxR : List ℝ → ℝ
  | [] => 0
  | x :: xs => xs.foldl max x

/-- Arithmetic mean of a list of reals (what `avg_db` would be if it were
averaged from the per-chunk values, which the code does not do). -/
noncomputable def listMeanR (l : List ℝ) : ℝ := l.sum / l.length

/-- The arithmetic mean of the per-chunk decibel values of a window. -/
noncomputable def chunkDbMean (samples : List ℚ) (rate : ℕ) : ℝ :=
  listMeanR ((validChunks samples rate).map calculate_db_from_samples)

open Classical in
/-- `NoiseMonitor.analyze_audio`, lines 172-205 of `main.py`, taking the
window returned by `get_recent_audio` as the `samples` parameter.  Returns
`none` when the window is empty, when `chunk_size` is zero (then
`range(0, len, 0)` raises `ValueError`, which the enclosing
`try`/`except` turns into `None`), or when no chunk passes the length
filter; otherwise the statistics, with `avg_db` computed by one further
`calculate_db_from_samples` call over the whole window (line 191). -/
noncomputable def analyzeSamples (samples : List ℚ) (rate oc : ℕ) : Option LevelStats :=
  if samples.length = 0 then none
  else if chunkSize rate = 0 then none
  else if validChunks samples rate = [] then none
  else some
    { min_db := listMinR ((validChunks samples rate).map calculate_db_from_samples)
      max_db := listMaxR ((validChunks samples rate).map calculate_db_from_samples)
      avg_db := calculate_db_from_samples samples
      duration := (samples.length : ℚ) / (rate : ℚ)
      overflows := oc }

/-- C8: the scheduler stays in the Warming-up state (`ready_to_publish`
stays false) and does not reach the publish section while
`now - stream_start_time < analysis_window_seconds`; on the first tick
with `now - stream_start_time >= analysis_window_seconds` it transitions
to Active and already publishes on that same tick; and once
`ready_to_publish` is true it never becomes false again. -/
theorem C8_warmup_state_machine :
    (∀ e w : ℚ, e < w → tick false e w = (false, false)) ∧
    (∀ e w : ℚ, w ≤ e → tick false e w = (true, true)) ∧
    (∀ e w : ℚ, (tick true e w).1 = true) := by
  refine ⟨fun e w h => ?_, fun e w h => ?_, fun e w => ?_⟩
  · rw [tick, if_pos rfl, if_neg (not_le.mpr h)]
  · rw [tick, if_pos rfl, if_pos h]
  · rw [tick]
    simp

/-- Witness for C8 at the spec's scenario: 5 seconds elapsed with a
10-second window stays warming and silent; 11 seconds elapsed
transitions; Active stays Active. -/
theorem C8_warmup_state_machine_witness :
    tick false 5 10 = (false, false) ∧ tick false 11 10 = (true, true) ∧
      (tick true 11 10).1 = true :=
  ⟨C8_warmup_state_machine.1 5 10 (by norm_num),
   C8_warmup_state_machine.2.1 11 10 (by norm_num),
   C8_warmup_state_machine.2.2 11 10⟩

/-- C9 counterexample: the claim says a single lock guards both the
buffer write and `read_recent`, but `audio_callback` (the buffer write,
lines 119-131) performs its buffer accesses without ever acquiring
`self.buffer_lock`: its trace contains no `lockAcquire` in either the
straight or the wraparound case, so its accesses are not lock-guarded. -/
theorem C9_counterexample_write_unlocked :
    lockGuarded (audioCallbackTrace false) = false ∧
      BufAction.lockAcquire ∉ audioCallbackTrace false ∧
      BufAction.lockAcquire ∉ audioCallbackTrace true := by
  decide

/-- C9 amended: only `get_recent_audio` acquires the buffer lock, and it
holds it for its entire body (its trace starts with the acquisition, ends
with the release, and every buffer access in between is guarded); the
audio callback's trace consists of bare buffer accesses with no lock
action at all, so the lock does not exclude a concurrent write during
`read_recent` and the no-tearing guarantee does not follow from it. -/
theorem C9_lock_discipline :
    (∀ wrap, lockGuarded (getRecentAudioTrace wrap) = true) ∧
    (∀ wrap, (getRecentAudioTrace wrap).head? = some BufAction.lockAcquire ∧
      (getRecentAudioTrace wrap).getLast? = some BufAction.lockRelease) ∧
    (∀ wrap, ∀ a ∈ audioCallbackTrace wrap, a = BufAction.bufAccess) := by
  refine ⟨fun wrap => ?_, fun wrap => ?_, fun wrap => ?_⟩ <;> cases wrap <;> decide

/-- C10: for every sample rate strictly below 10, the chunk size
`int(sample_rate * 0.1)` is zero, and `analyze_audio` returns `None`
rather than raising — `range(0, len(samples), 0)` raises `ValueError`,
which the `try`/`except` of `analyze_audio` catches — so no statistics
are ever produced at such sample rates. -/
theorem C10_low_rate_returns_none (rate : ℕ) (h : rate < 10) :
    chunkSize rate = 0 ∧ ∀ (samples : List ℚ) (oc : ℕ), analyzeSamples samples rate oc = none := by
  have hcs : chunkSize rate = 0 := by
    rw [chunkSize_eq]
    omega
  refine ⟨hcs, fun samples oc => ?_⟩
  simp [analyzeSamples, hcs]

/-- Witness for C10 at `rate = 9` on a nonempty window. -/
theorem C10_low_rate_returns_none_witness :
    analyzeSamples [1] 9 0 = none :=
  (C10_low_rate_returns_none 9 (by norm_num)).2 [1] 0

/-- An all-zero sample array has zero RMS: the mean is zero, the centered
samples are all zero, and so is the mean square. -/
theorem rmsOf_replicate_zero (n : ℕ) : rmsOf (List.replicate n (0 : ℚ)) = 0 := by
  have hmean : listMean (List.replicate n (0 : ℚ)) = 0 := by
    simp [listMean, List.sum_replicate]
  have hms : meanSquare (List.replicate n (0 : ℚ)) = 0 := by
    rw [meanSquare, hmean]
    simp [List.map_replicate, listMean, List.sum_replicate]
  rw [rmsOf, hms]
  simp

/-- C3: `calculate_db_from_samples` returns exactly `-80.0` on the empty
array and on every all-zero array; in general, for a nonempty array it
returns `-80.0` whenever the RMS of the mean-centered samples is at most
`1e-10`, and `20 * log10(rms)` of that RMS otherwise. -/
theorem C3_silence_floor :
    (calculate_db_from_samples [] = -80) ∧
    (∀ n : ℕ, calculate_db_from_samples (List.replicate n (0 : ℚ)) = -80) ∧
    (∀ s : List ℚ, s ≠ [] →
      (rmsOf s ≤ 1e-10 → calculate_db_from_samples s = -80) ∧
      ((1e-10 : ℝ) < rmsOf s →
        calculate_db_from_samples s = 20 * Real.logb 10 (rmsOf s))) := by
  refine ⟨by rw [calculate_db_from_samples]; simp, fun n => ?_, fun s hs => ⟨fun h => ?_, fun h => ?_⟩⟩
  · rw [calculate_db_from_samples]
    rcases Nat.eq_zero_or_pos n with hn | hn
    · simp [hn]
    · rw [if_neg (by simp; omega), rmsOf_replicate_zero, if_neg (by norm_num)]
  · rw [calculate_db_from_samples, if_neg (by simpa using hs), if_neg (not_lt.mpr h)]
  · rw [calculate_db_from_samples, if_neg (by simpa using hs), if_pos h]

/-- The RMS of `[1, -1]` is exactly 1. -/
theorem rmsOf_one_neg_one : rmsOf [(1 : ℚ), -1] = 1 := by
  have hmean : listMean [(1 : ℚ), -1] = 0 := by
    norm_num [listMean]
  have hms : meanSquare [(1 : ℚ), -1] = 1 := by
    rw [meanSquare, hmean]
    norm_num [listMean]
  rw [rmsOf, hms]
  simp

/-- Witness for C3 on the concrete nonempty array `[1, -1]`, whose RMS
is 1, above the silence threshold. -/
theorem C3_silence_floor_witness :
    calculate_db_from_samples [(1 : ℚ), -1] = 20 * Real.logb 10 (rmsOf [(1 : ℚ), -1]) :=
  (C3_silence_floor.2.2 [(1 : ℚ), -1] (by simp)).2 (by rw [rmsOf_one_neg_one]; norm_num)

theorem ringContents_length (s : RingState) (hw : s.writeIndex ≤ s.buffer.length) :
    (ringContents s).length = s.buffer.length := by
  rw [ringContents]
  simp
  omega

/-- When the truncated sample count is nonnegative, the clamped
`samples_needed` is the minimum of the capacity and that count. -/
theorem samplesNeeded_eq_min (cap rate : ℕ) (seconds : ℚ)
    (h : 0 ≤ pyInt ((rate : ℚ) * seconds)) :
    samplesNeeded cap rate seconds
      = ((min cap (pyInt ((rate : ℚ) * seconds)).toNat : ℕ) : ℤ) := by
  simp only [samplesNeeded]
  split <;> omega

/-- For a positive request of `n ≤ capacity` samples, `get_recent_audio`
returns exactly the last `n` samples of the ring contents. -/
theorem getRecentAudio_eq_lastN (cap rate : ℕ) (s : RingState) (seconds : ℚ) (n : ℕ)
    (hc : 0 < cap) (hb : s.buffer.length = cap) (hw : s.writeIndex < cap)
    (hn : samplesNeeded cap rate seconds = (n : ℤ)) (h0 : 0 < n) (hcapn : n ≤ cap) :
    getRecentAudio cap rate s seconds = lastN n (ringContents s) := by
  have hrc : (ringContents s).length = cap := by rw [ringContents_length s (by omega), hb]
  have hdlen : (s.buffer.drop s.writeIndex).length = cap - s.writeIndex := by
    rw [List.length_drop, hb]
  rcases le_or_lt n s.writeIndex with hnw | hnw
  · -- no wraparound: start = writeIndex - n < writeIndex
    have hstart : startIndex cap s.writeIndex (n : ℤ) = ((s.writeIndex - n : ℕ) : ℤ) := by
      rw [startIndex]
      rw [show ((s.writeIndex : ℤ) - n) = ((s.writeIndex - n : ℕ) : ℤ) by omega]
      refine Int.emod_eq_of_lt (by positivity) ?_
      have : s.writeIndex - n < cap := by omega
      exact_mod_cast this
    rw [getRecentAudio, hn, hstart, if_pos (by omega)]
    rw [lastN, hrc, ringContents, List.drop_append_eq_append_drop]
    rw [List.drop_eq_nil_of_le (le_of_eq_of_le hdlen (by omega))]
    rw [List.nil_append, Int.toNat_natCast, hdlen]
    congr 1
    omega
  · -- wraparound: start = writeIndex + cap - n ≥ writeIndex
    have hstart : startIndex cap s.writeIndex (n : ℤ)
        = ((s.writeIndex + cap - n : ℕ) : ℤ) := by
      rw [startIndex]
      rw [show ((s.writeIndex : ℤ) - n) = ((s.writeIndex + cap - n : ℕ) : ℤ) + cap * (-1) by omega]
      rw [Int.add_mul_emod_self_left]
      refine Int.emod_eq_of_lt (by positivity) ?_
      have : s.writeIndex + cap - n < cap := by omega
      exact_mod_cast this
    rw [getRecentAudio, hn, hstart, if_neg (by omega)]
    rw [lastN, hrc, ringContents, List.drop_append_eq_append_drop]
    rw [List.drop_drop, hdlen, Int.toNat_natCast]
    rw [show cap - n - (cap - s.writeIndex) = 0 by omega, List.drop_zero]
    congr 2
    omega

/-- When the clamped request is zero samples, `start_index` equals the
write index, the wraparound branch is taken, and `get_recent_audio`
returns the entire buffer in ring order. -/
theorem getRecentAudio_of_zero (cap rate : ℕ) (s : RingState) (seconds : ℚ)
    (hc : 0 < cap) (hw : s.writeIndex < cap)
    (hn : samplesNeeded cap rate seconds = 0) :
    getRecentAudio cap rate s seconds = ringContents s := by
  have hstart : startIndex cap s.writeIndex 0 = (s.writeIndex : ℤ) := by
    rw [startIndex, sub_zero]
    refine Int.emod_eq_of_lt (by positivity) (by exact_mod_cast hw)
  rw [getRecentAudio, hn, hstart, if_neg (lt_irrefl _), Int.toNat_natCast, ringContents]

/-- C6 counterexample: the claim computes `samples_needed` with `round`,
but the code truncates with `int()`.  At `sample_rate = 16` and
`seconds = 7/64` (both exactly representable in floating point) the
product is `1.75`: the claimed count is `min(capacity, round(1.75)) = 2`,
yet on a fresh 4-slot buffer the returned window has exactly 1 sample. -/
theorem C6_counterexample_round_vs_trunc :
    (getRecentAudio 4 16 (initState 4) (7 / 64)).length = 1 ∧
      min (4 : ℤ) (round ((16 : ℚ) * (7 / 64))) = 2 := by
  have hpy : pyInt ((16 : ℚ) * (7 / 64)) = 1 := by
    rw [pyInt, if_pos (by norm_num)]
    norm_num
  constructor
  · have hn : samplesNeeded 4 16 (7 / 64) = ((1 : ℕ) : ℤ) := by
      rw [samplesNeeded]
      simp [hpy]
    rw [getRecentAudio_eq_lastN 4 16 (initState 4) (7 / 64) 1 (by norm_num)
      (by simp [initState]) (by simp [initState]) hn (by norm_num) (by norm_num)]
    simp [lastN, ringContents, initState]
  · rw [round_eq]
    norm_num

/-- C6 amended: for `seconds > 0`, `get_recent_audio` requests
`samples_needed = min(capacity, int(seconds * sample_rate))` samples —
`int()` truncates toward zero, it does not round — starting at
`(write_index - samples_needed) mod capacity`; when `samples_needed > 0`
the returned copy has exactly `samples_needed` samples (the most recent
ones), and when `samples_needed = 0` (possible for `0 < seconds <
1/sample_rate`) the whole buffer of `capacity` samples is returned
instead. -/
theorem C6_samples_needed (cap rate : ℕ) (s : RingState) (seconds : ℚ)
    (hc : 0 < cap) (hb : s.buffer.length = cap) (hw : s.writeIndex < cap)
    (hsec : 0 < seconds) :
    (0 < pyInt ((rate : ℚ) * seconds) →
      (getRecentAudio cap rate s seconds).length
        = min cap (pyInt ((rate : ℚ) * seconds)).toNat) ∧
    (pyInt ((rate : ℚ) * seconds) = 0 →
      getRecentAudio cap rate s seconds = ringContents s) := by
  have hnn : 0 ≤ pyInt ((rate : ℚ) * seconds) := pyInt_nonneg (by positivity)
  constructor
  · intro hpos
    have hmin : samplesNeeded cap rate seconds
        = ((min cap (pyInt ((rate : ℚ) * seconds)).toNat : ℕ) : ℤ) :=
      samplesNeeded_eq_min cap rate seconds hnn
    rw [getRecentAudio_eq_lastN cap rate s seconds _ hc hb hw hmin
      (by omega) (min_le_left _ _)]
    rw [lastN, List.length_drop, ringContents_length s (by omega), hb]
    omega
  · intro hz
    refine getRecentAudio_of_zero cap rate s seconds hc hw ?_
    rw [samplesNeeded]
    simp [hz]

/-- Witness for the amended C6: a fresh 4-slot buffer at rate 2 read for
3 seconds returns `min(4, 6) = 4` samples. -/
theorem C6_samples_needed_witness :
    (getRecentAudio 4 2 (initState 4) 3).length = 4 := by
  have h := (C6_samples_needed 4 2 (initState 4) 3 (by norm_num) (by simp [initState])
    (by simp [initState]) (by norm_num)).1 (by norm_num [pyInt])
  rw [h]
  norm_num [pyInt]

/-- Every sample returned by `get_recent_audio` comes from the buffer. -/
theorem getRecentAudio_mem_buffer {cap rate : ℕ} {s : RingState} {seconds : ℚ} {x : ℚ}
    (hx : x ∈ getRecentAudio cap rate s seconds) : x ∈ s.buffer := by
  rw [getRecentAudio] at hx
  split at hx
  · exact List.take_subset _ _ (List.drop_subset _ _ hx)
  · rcases List.mem_append.mp hx with h | h
    · exact List.drop_subset _ _ h
    · exact List.take_subset _ _ h

/-- C2 counterexample: the claim says `read_recent` with `seconds <= 0`,
and before any data has been written, returns an empty window.  On a
fresh 4-slot buffer, `get_recent_audio(0)` computes `samples_needed = 0`
and `start_index = write_index`, takes the wraparound branch, and returns
the entire 4-sample zero-filled buffer — not an empty window (this single
input refutes both the `seconds <= 0` case and the before-any-write
case). -/
theorem C2_counterexample_not_empty :
    getRecentAudio 4 4 (initState 4) 0 ≠ [] ∧
      (getRecentAudio 4 4 (initState 4) 0).length = 4 := by
  have hz : samplesNeeded 4 4 0 = 0 := by
    rw [samplesNeeded]
    norm_num [pyInt]
  have h := getRecentAudio_of_zero 4 4 (initState 4) 0 (by norm_num) (by simp [initState]) hz
  rw [h]
  constructor <;> simp [ringContents, initState]


/-- C2 amended: `read_recent` with `seconds <= 0` returns a non-empty
window of `capacity - (int(sample_rate * seconds).natAbs mod capacity)`
samples (in particular the whole buffer when `seconds = 0`), and before
any data has been written every sample of the returned window is `0`
(the initial zero fill) — in neither case an empty window, and no error
is raised. -/
theorem C2_nonpositive_window (cap rate : ℕ) (s : RingState) (seconds : ℚ)
    (hc : 0 < cap) (hb : s.buffer.length = cap) (hw : s.writeIndex < cap)
    (hsec : seconds ≤ 0) :
    ((getRecentAudio cap rate s seconds).length
        = cap - (pyInt ((rate : ℚ) * seconds)).natAbs % cap ∧
      getRecentAudio cap rate s seconds ≠ []) ∧
    (∀ t : ℚ, ∀ x ∈ getRecentAudio cap rate (initState cap) t, x = 0) := by
  have hqs : (rate : ℚ) * seconds ≤ 0 :=
    mul_nonpos_iff.mpr (Or.inl ⟨by positivity, hsec⟩)
  have hN : pyInt ((rate : ℚ) * seconds) ≤ 0 := pyInt_nonpos hqs
  have hr : (pyInt ((rate : ℚ) * seconds)).natAbs % cap < cap := Nat.mod_lt _ hc
  have hlen : (getRecentAudio cap rate s seconds).length
      = cap - (pyInt ((rate : ℚ) * seconds)).natAbs % cap := by
    have hsn : samplesNeeded cap rate seconds = pyInt ((rate : ℚ) * seconds) := by
      simp only [samplesNeeded]
      rw [if_neg (by omega)]
    have hcast : (s.writeIndex : ℤ) - pyInt ((rate : ℚ) * seconds)
        = ((s.writeIndex + (pyInt ((rate : ℚ) * seconds)).natAbs : ℕ) : ℤ) := by
      omega
    have hsplit : s.writeIndex + (pyInt ((rate : ℚ) * seconds)).natAbs
        = (s.writeIndex + (pyInt ((rate : ℚ) * seconds)).natAbs % cap)
          + cap * ((pyInt ((rate : ℚ) * seconds)).natAbs / cap) := by
      have := Nat.div_add_mod (pyInt ((rate : ℚ) * seconds)).natAbs cap
      omega
    have hstart : startIndex cap s.writeIndex (samplesNeeded cap rate seconds)
        = (((s.writeIndex + (pyInt ((rate : ℚ) * seconds)).natAbs % cap) % cap : ℕ) : ℤ) := by
      rw [startIndex, hsn, hcast, hsplit, ← Int.natCast_mod, Nat.add_mul_mod_self_left]
    rcases lt_or_le (s.writeIndex + (pyInt ((rate : ℚ) * seconds)).natAbs % cap) cap
      with hcase | hcase
    · -- start = writeIndex + r : the wraparound branch returns cap - r samples
      rw [getRecentAudio, hstart, Nat.mod_eq_of_lt hcase, if_neg (by omega),
        Int.toNat_natCast]
      rw [List.length_append, List.length_drop, List.length_take, hb,
        Nat.min_eq_left (le_of_lt hw)]
      omega
    · -- start = writeIndex + r - cap : the contiguous branch returns cap - r samples
      have hlt : s.writeIndex + (pyInt ((rate : ℚ) * seconds)).natAbs % cap - cap < cap := by
        omega
      rw [getRecentAudio, hstart, Nat.mod_eq_sub_mod hcase, Nat.mod_eq_of_lt hlt,
        if_pos (by omega), Int.toNat_natCast]
      rw [List.length_drop, List.length_take, hb, Nat.min_eq_left (le_of_lt hw)]
      omega
  refine ⟨⟨hlen, fun hnil => ?_⟩, fun t x hx => ?_⟩
  · rw [hnil] at hlen
    simp at hlen
    omega
  · have hmem := getRecentAudio_mem_buffer hx
    rw [initState] at hmem
    exact List.eq_of_mem_replicate hmem

/-- Witness for the amended C2: a 4-slot buffer with write index 1 read
for `-1/2` seconds at rate 4 returns `4 - (2 mod 4) = 2` samples, not an
empty window. -/
theorem C2_nonpositive_window_witness :
    (getRecentAudio 4 4 ⟨List.replicate 4 0, 1⟩ (-1 / 2)).length = 2 ∧
      getRecentAudio 4 4 ⟨List.replicate 4 0, 1⟩ (-1 / 2) ≠ [] := by
  have h := (C2_nonpositive_window 4 4 ⟨List.replicate 4 0, 1⟩ (-1 / 2) (by norm_num)
    (by simp) (by norm_num) (by norm_num)).1
  refine ⟨?_, h.2⟩
  have hc2 : pyInt (((4 : ℕ) : ℚ) * (-1 / 2)) = -2 := by
    rw [pyInt, if_neg (by norm_num)]
    rw [show ((4 : ℕ) : ℚ) * (-1 / 2) = ((-2 : ℤ) : ℚ) by norm_num, Int.ceil_intCast]
  rw [h.1, hc2]
  decide

theorem chunksOfAux_nil (cs fuel : ℕ) : chunksOfAux cs fuel [] = [] := by
  cases fuel <;> rfl

theorem chunksOfAux_cons (cs fuel : ℕ) (a : ℚ) (t : List ℚ) :
    chunksOfAux cs (fuel + 1) (a :: t)
      = (a :: t).take cs :: chunksOfAux cs fuel ((a :: t).drop cs) := by
  rfl

/-- With enough fuel, the chunks of a window concatenate back to the
window: the loop `for i in range(0, len(samples), chunk_size)` covers the
window without gaps or overlaps. -/
theorem chunksOfAux_flatten (cs : ℕ) (hcs : cs ≠ 0) :
    ∀ (fuel : ℕ) (l : List ℚ), l.length ≤ fuel → (chunksOfAux cs fuel l).flatten = l := by
  intro fuel
  induction fuel with
  | zero =>
    intro l hl
    have hnil : l.length = 0 := by omega
    rw [List.length_eq_zero.mp hnil]
    rfl
  | succ n ih =>
    intro l hl
    cases l with
    | nil => rfl
    | cons a t =>
      rw [chunksOfAux_cons, List.flatten_cons]
      rw [ih ((a :: t).drop cs)
        (by rw [List.length_drop]; simp only [List.length_cons] at hl ⊢; omega)]
      exact List.take_append_drop _ _

theorem chunksOf_flatten (cs : ℕ) (hcs : cs ≠ 0) (l : List ℚ) :
    (chunksOf cs l).flatten = l :=
  chunksOfAux_flatten cs hcs l.length l le_rfl

/-- Every chunk except possibly the last has exactly the target length. -/
theorem chunksOfAux_dropLast (cs : ℕ) (hcs : cs ≠ 0) :
    ∀ (fuel : ℕ) (l : List ℚ), l.length ≤ fuel →
      ∀ c ∈ (chunksOfAux cs fuel l).dropLast, c.length = cs := by
  intro fuel
  induction fuel with
  | zero =>
    intro l hl c hc
    have hnil : l.length = 0 := by omega
    rw [List.length_eq_zero.mp hnil] at hc
    simp [chunksOfAux_nil] at hc
  | succ n ih =>
    intro l hl c hc
    cases l with
    | nil => simp [chunksOfAux_nil] at hc
    | cons a t =>
      rw [chunksOfAux_cons] at hc
      rcases hrest : chunksOfAux cs n ((a :: t).drop cs) with _ | ⟨r, rs⟩
      · rw [hrest] at hc
        simp at hc
      · rw [hrest, List.dropLast_cons_of_ne_nil (by simp)] at hc
        rcases List.mem_cons.mp hc with hceq | hctail
        · subst hceq
          have hnonnil : (a :: t).drop cs ≠ [] := by
            intro hnil
            rw [hnil, chunksOfAux_nil] at hrest
            exact List.noConfusion hrest
          have : cs < (a :: t).length := by
            by_contra hge
            exact hnonnil (List.drop_eq_nil_of_le (by omega))
          rw [List.length_take]
          omega
        · refine ih ((a :: t).drop cs)
            (by rw [List.length_drop]; simp only [List.length_cons] at hl ⊢; omega) c ?_
          rw [hrest]
          exact hctail

/-- C5 counterexample: two parts of the claim fail on the code.
First, the chunk length is `int(sample_rate * 0.1)` (truncation), not
`round(sample_rate * 0.1)`: at `sample_rate = 15` the code chunks by 1
sample while `round(1.5) = 2`.  Second, "at least half the target chunk
length" does not hold for the code's integer filter `len >= chunk_size // 2`
when the target is odd: at `sample_rate = 70` (target 7) the window below
ends in a 3-sample chunk which the code keeps — it appears in
`validChunks` — even though `2 * 3 < 7`, i.e. 3 is strictly less than
half of 7. -/
theorem C5_counterexample_chunking :
    (chunkSize 15 = 1 ∧ round ((15 : ℚ) * (1 / 10)) = 2) ∧
    (validChunks [1, -1, 1, -1, 1, -1, 1, 0, 0, 0] 70
        = [[1, -1, 1, -1, 1, -1, 1], [0, 0, 0]] ∧
      ¬(chunkSize 70 ≤ 2 * 3)) := by
  have h70 : chunkSize 70 = 7 := by rw [chunkSize_eq]
  refine ⟨⟨by rw [chunkSize_eq], ?_⟩, ?_, by omega⟩
  · rw [round_eq]
    norm_num
  · rw [validChunks, h70]
    decide

/-- C5 amended: with a positive chunk size (`int(sample_rate * 0.1)`,
i.e. truncation toward zero, not rounding), `analyze_audio` partitions
the window into consecutive chunks of that many samples where only the
last chunk may be shorter; a chunk contributes to `min_db`/`max_db` if
and only if its length is at least `chunk_size // 2` (integer half, so
for an odd target a chunk of exactly `(target - 1) / 2` samples still
contributes); a window that is empty or produces zero valid chunks
yields `None` instead of statistics. -/
theorem C5_chunk_partition (samples : List ℚ) (rate oc : ℕ) (hcs : chunkSize rate ≠ 0) :
    (chunksOf (chunkSize rate) samples).flatten = samples ∧
    (∀ c ∈ (chunksOf (chunkSize rate) samples).dropLast, c.length = chunkSize rate) ∧
    (∀ c : List ℚ, validChunk (chunkSize rate) c = true ↔ chunkSize rate / 2 ≤ c.length) ∧
    (analyzeSamples samples rate oc = none ↔ samples = [] ∨ validChunks samples rate = []) := by
  refine ⟨chunksOf_flatten _ hcs samples,
    chunksOfAux_dropLast _ hcs samples.length samples le_rfl, fun c => by simp [validChunk], ?_⟩
  rw [analyzeSamples]
  rcases Nat.eq_zero_or_pos samples.length with hlen | hlen
  · rw [if_pos hlen]
    simp [List.length_eq_zero.mp hlen]
  · rw [if_neg (by omega), if_neg hcs]
    have hsne : ¬(samples = []) := by
      intro h
      rw [h] at hlen
      simp at hlen
    rcases eq_or_ne (validChunks samples rate) [] with hv | hv
    · rw [if_pos hv]
      simp [hv]
    · rw [if_neg hv]
      simp [hv, hsne]

/-- Witness for the amended C5 at `sample_rate = 15` (chunk size 1) on a
three-sample window: the chunks concatenate back to the window. -/
theorem C5_chunk_partition_witness :
    (chunksOf (chunkSize 15) [1, 2, 3]).flatten = [1, 2, 3] :=
  (C5_chunk_partition [1, 2, 3] 15 0 (by rw [chunkSize_eq]; omega)).1

/-- The demonstration window for the `avg_db` asymmetry: two chunks at
rate 20 (chunk size 2), one full-scale alternating chunk and one silent
chunk. -/
def demoWindow : List ℚ := [1, -1, 0, 0]

/-- The statistics `analyze_audio` produces for `demoWindow` at rate 20
with no overflows. -/
noncomputable def demoStats : LevelStats :=
  { min_db := listMinR ((validChunks demoWindow 20).map calculate_db_from_samples)
    max_db := listMaxR ((validChunks demoWindow 20).map calculate_db_from_samples)
    avg_db := calculate_db_from_samples demoWindow
    duration := (demoWindow.length : ℚ) / ((20 : ℕ) : ℚ)
    overflows := 0 }

theorem validChunks_demoWindow : validChunks demoWindow 20 = [[1, -1], [0, 0]] := by
  have h20 : chunkSize 20 = 2 := by rw [chunkSize_eq]
  rw [demoWindow, validChunks, h20]
  decide

theorem analyzeSamples_demoWindow : analyzeSamples demoWindow 20 0 = some demoStats := by
  rw [analyzeSamples, if_neg (by rw [demoWindow]; norm_num),
    if_neg (by rw [chunkSize_eq]; omega),
    if_neg (by rw [validChunks_demoWindow]; simp)]
  rfl

theorem db_silent_pair : calculate_db_from_samples [(0 : ℚ), 0] = -80 := by
  have hrms : rmsOf [(0 : ℚ), 0] = 0 := by
    have h := rmsOf_replicate_zero 2
    simpa using h
  rw [calculate_db_from_samples, if_neg (by norm_num), hrms, if_neg (by norm_num)]

theorem db_full_pair : calculate_db_from_samples [(1 : ℚ), -1] = 0 := by
  rw [calculate_db_from_samples, if_neg (by norm_num), rmsOf_one_neg_one,
    if_pos (by norm_num)]
  simp

theorem rmsOf_demoWindow : rmsOf demoWindow = Real.sqrt (1 / 2) := by
  have hmean : listMean demoWindow = 0 := by norm_num [demoWindow, listMean]
  have hms : meanSquare demoWindow = 1 / 2 := by
    rw [meanSquare, hmean]
    norm_num [demoWindow, listMean]
  rw [rmsOf, hms]
  norm_num

theorem db_demoWindow :
    calculate_db_from_samples demoWindow = 20 * Real.logb 10 (Real.sqrt (1 / 2)) := by
  have hgt : (1e-10 : ℝ) < Real.sqrt (1 / 2) := by
    have h2 : (1 / 2 : ℝ) ≤ Real.sqrt (1 / 2) := by
      nlinarith [Real.sq_sqrt (by norm_num : (0 : ℝ) ≤ 1 / 2), Real.sqrt_nonneg (1 / 2 : ℝ)]
    linarith
  rw [calculate_db_from_samples, if_neg (by rw [demoWindow]; norm_num), rmsOf_demoWindow,
    if_pos hgt]

/-- The whole-window decibel value of `demoWindow` is strictly above
−40 dB (it is −10·log2/log10 ≈ −3.01 dB). -/
theorem db_demoWindow_gt :
    -40 < calculate_db_from_samples demoWindow := by
  rw [db_demoWindow]
  have hlog2 : 0 < Real.log 2 := Real.log_pos (by norm_num)
  have hlog10 : 0 < Real.log 10 := Real.log_pos (by norm_num)
  have hlt : Real.log 2 < Real.log 10 := Real.log_lt_log (by norm_num) (by norm_num)
  have hsq : Real.log (Real.sqrt (1 / 2)) = Real.log (1 / 2) / 2 :=
    Real.log_sqrt (by norm_num)
  have hinv : Real.log (1 / 2 : ℝ) = -Real.log 2 := by
    rw [one_div, Real.log_inv]
  have hq : Real.log 2 / Real.log 10 < 1 := (div_lt_one hlog10).mpr hlt
  rw [Real.logb, hsq, hinv]
  have hd : 0 < Real.log 2 / Real.log 10 := by positivity
  calc (-40 : ℝ) < -10 * (Real.log 2 / Real.log 10) := by nlinarith
  _ = 20 * (-Real.log 2 / 2 / Real.log 10) := by ring

/-- The per-chunk decibel mean of `demoWindow` at rate 20 is exactly
−40 dB: the mean of 0 dB (full-scale chunk) and −80 dB (silent chunk). -/
theorem chunkDbMean_demoWindow : chunkDbMean demoWindow 20 = -40 := by
  rw [chunkDbMean, validChunks_demoWindow]
  simp only [List.map_cons, List.map_nil, db_full_pair, db_silent_pair]
  rw [listMeanR]
  norm_num

/-- C4: whenever `analyze_audio` produces statistics, the `avg_db` field
equals `calculate_db_from_samples` applied once to the entire window
(line 191 of `main.py`); and it is not the arithmetic mean of the
per-chunk decibel values used for `min_db`/`max_db`: on `demoWindow`
the chunk mean is −40 dB while the whole-window value is ≈ −3 dB. -/
theorem C4_avg_db_whole_window :
    (∀ (samples : List ℚ) (rate oc : ℕ) (st : LevelStats),
      analyzeSamples samples rate oc = some st →
        st.avg_db = calculate_db_from_samples samples) ∧
    calculate_db_from_samples demoWindow ≠ chunkDbMean demoWindow 20 := by
  constructor
  · intro samples rate oc st h
    rw [analyzeSamples] at h
    split_ifs at h
    rcases Option.some.injEq _ _ ▸ h with rfl
    rfl
  · rw [chunkDbMean_demoWindow]
    intro h
    have := db_demoWindow_gt
    rw [h] at this
    exact lt_irrefl _ this

/-- Witness for C4: the statistics produced for `demoWindow` have
`avg_db` equal to the whole-window decibel value. -/
theorem C4_avg_db_whole_window_witness :
    demoStats.avg_db = calculate_db_from_samples demoWindow :=
  C4_avg_db_whole_window.1 demoWindow 20 0 demoStats analyzeSamples_demoWindow

theorem listSetRange_length (buf : List ℚ) (i : ℕ) (d : List ℚ)
    (h : i + d.length ≤ buf.length) :
    (listSetRange buf i d).length = buf.length := by
  simp only [listSetRange, List.length_append, List.length_take, List.length_drop]
  rw [Nat.min_eq_left (by omega)]
  omega

/-- One in-range `audio_callback` write (at most `capacity` samples)
succeeds, keeps the buffer at exactly `capacity` samples with the cursor
in `[0, capacity)`, and turns the ring contents into the last `capacity`
samples of the old ring contents followed by the new block. -/
theorem audioCallback_ok_spec (cap : ℕ) (s : RingState) (d : List ℚ)
    (hc : 0 < cap) (hb : s.buffer.length = cap) (hw : s.writeIndex < cap)
    (hd : d.length ≤ cap) :
    ∃ s', audioCallback cap s d = .ok s' ∧ s'.buffer.length = cap ∧
      s'.writeIndex < cap ∧ ringContents s' = lastN cap (ringContents s ++ d) := by
  have hdw : (s.buffer.drop s.writeIndex).length = cap - s.writeIndex := by
    rw [List.length_drop, hb]
  have htw : (s.buffer.take s.writeIndex).length = s.writeIndex := by
    rw [List.length_take, hb, Nat.min_eq_left (by omega)]
  have hrc : (s.buffer.drop s.writeIndex ++ s.buffer.take s.writeIndex).length = cap := by
    rw [List.length_append, hdw, htw]
    omega
  by_cases hcase : s.writeIndex + d.length ≤ cap
  · -- no wraparound: a single slice assignment
    refine ⟨⟨listSetRange s.buffer s.writeIndex d, (s.writeIndex + d.length) % cap⟩,
      by simp only [audioCallback]; rw [if_pos hcase],
      (by rw [listSetRange_length _ _ _ (by omega), hb] :
        (listSetRange s.buffer s.writeIndex d).length = cap),
      Nat.mod_lt _ hc, ?_⟩
    dsimp only [ringContents, lastN]
    rw [List.length_append, hrc, show cap + d.length - cap = d.length by omega,
      List.drop_append_eq_append_drop, hrc, show d.length - cap = 0 by omega,
      List.drop_zero]
    conv_rhs => rw [List.drop_append_eq_append_drop, hdw,
      show d.length - (cap - s.writeIndex) = 0 by omega, List.drop_zero,
      List.drop_drop]
    rcases Nat.lt_or_ge (s.writeIndex + d.length) cap with hlt | hge
    · -- the write stays strictly inside: cursor advances to w + n
      have hw' : (s.writeIndex + d.length) % cap = s.writeIndex + d.length :=
        Nat.mod_eq_of_lt hlt
      have hlen1 : (s.buffer.take s.writeIndex ++ d).length = s.writeIndex + d.length := by
        rw [List.length_append, htw]
      rw [hw', listSetRange, List.drop_left' hlen1, List.take_left' hlen1,
        List.append_assoc]
    · -- the write ends exactly at the boundary: cursor wraps to 0
      have heq : s.writeIndex + d.length = cap := le_antisymm hcase hge
      rw [heq, Nat.mod_self, List.drop_zero, List.take_zero, List.append_nil,
        listSetRange, heq, List.drop_eq_nil_of_le (by omega), List.append_nil,
        List.nil_append]
  · -- wraparound: two slice assignments
    have hfp : (d.take (cap - s.writeIndex)).length = cap - s.writeIndex := by
      rw [List.length_take]
      omega
    have hbuf1 : listSetRange s.buffer s.writeIndex (d.take (cap - s.writeIndex))
        = s.buffer.take s.writeIndex ++ d.take (cap - s.writeIndex) := by
      rw [listSetRange, hfp, show s.writeIndex + (cap - s.writeIndex) = cap by omega,
        List.drop_eq_nil_of_le (by omega), List.append_nil]
    have hm : (d.drop (cap - s.writeIndex)).length
        = s.writeIndex + d.length - cap := by
      rw [List.length_drop]
      omega
    have hl1 : (listSetRange s.buffer s.writeIndex (d.take (cap - s.writeIndex))).length
        = cap := by
      rw [listSetRange_length _ _ _ (by omega), hb]
    have hw' : (s.writeIndex + d.length) % cap = s.writeIndex + d.length - cap := by
      rw [Nat.mod_eq_sub_mod (by omega), Nat.mod_eq_of_lt (by omega)]
    refine ⟨⟨listSetRange (listSetRange s.buffer s.writeIndex (d.take (cap - s.writeIndex)))
        0 (d.drop (cap - s.writeIndex)), (s.writeIndex + d.length) % cap⟩,
      by simp only [audioCallback]; rw [if_neg hcase, if_pos (by omega)],
      (by rw [listSetRange_length _ _ _ (by omega), hl1] :
        (listSetRange (listSetRange s.buffer s.writeIndex (d.take (cap - s.writeIndex)))
          0 (d.drop (cap - s.writeIndex))).length = cap),
      Nat.mod_lt _ hc, ?_⟩
    have hbuf2 : listSetRange (listSetRange s.buffer s.writeIndex
        (d.take (cap - s.writeIndex))) 0 (d.drop (cap - s.writeIndex))
        = d.drop (cap - s.writeIndex)
          ++ ((s.buffer.take s.writeIndex).drop (s.writeIndex + d.length - cap)
            ++ d.take (cap - s.writeIndex)) := by
      rw [listSetRange, hbuf1, List.take_zero, List.nil_append, hm, Nat.zero_add,
        List.drop_append_eq_append_drop, htw,
        show s.writeIndex + d.length - cap - s.writeIndex = 0 by omega, List.drop_zero]
    dsimp only [ringContents, lastN]
    rw [hw', hbuf2, List.drop_left' hm, List.take_left' hm]
    rw [List.length_append, hrc, show cap + d.length - cap = d.length by omega,
      List.drop_append_eq_append_drop, hrc, show d.length - cap = 0 by omega,
      List.drop_zero]
    conv_rhs => rw [List.drop_append_eq_append_drop,
      List.drop_eq_nil_of_le (le_of_eq_of_le hdw (by omega)), List.nil_append, hdw,
      show d.length - (cap - s.writeIndex) = s.writeIndex + d.length - cap by omega]
    rw [List.append_assoc, List.take_append_drop]

/-- Collapsing the accumulated suffix: keeping only the last `n` elements
before appending more data does not change the last `n` elements of the
whole stream, as long as at least `n` elements were already present. -/
theorem lastN_lastN_append (n : ℕ) (a b : List ℚ) (h : n ≤ a.length) :
    lastN n (lastN n a ++ b) = lastN n (a ++ b) := by
  simp only [lastN, List.length_append, List.length_drop]
  rw [List.drop_append_eq_append_drop, List.drop_append_eq_append_drop,
    List.drop_drop, List.length_drop]
  congr 2 <;> omega

/-- The last `n` elements of `a ++ b` ignore `a` entirely once `b` has at
least `n` elements. -/
theorem lastN_append_right (n : ℕ) (a b : List ℚ) (h : n ≤ b.length) :
    lastN n (a ++ b) = lastN n b := by
  rw [lastN, lastN, List.length_append, List.drop_append_eq_append_drop,
    List.drop_eq_nil_of_le (by omega), List.nil_append]
  congr 1
  omega

/-- Folding a sequence of in-range `audio_callback` writes over a valid
ring state: every write succeeds, the invariants hold, and the final ring
contents are the last `capacity` samples of the initial contents followed
by the whole written stream. -/
theorem writeSeq_ok_spec (cap : ℕ) (hc : 0 < cap) :
    ∀ (ws : List (List ℚ)) (s : RingState), s.buffer.length = cap → s.writeIndex < cap →
      (∀ d ∈ ws, d.length ≤ cap) →
      ∃ s', writeSeq cap s ws = .ok s' ∧ s'.buffer.length = cap ∧ s'.writeIndex < cap ∧
        ringContents s' = lastN cap (ringContents s ++ ws.flatten) := by
  intro ws
  induction ws with
  | nil =>
    intro s hb hw _
    refine ⟨s, rfl, hb, hw, ?_⟩
    rw [List.flatten_nil, List.append_nil, lastN, ringContents_length s (by omega), hb,
      Nat.sub_self, List.drop_zero]
  | cons d ds ih =>
    intro s hb hw hall
    obtain ⟨s1, hok, hb1, hw1, hrot⟩ :=
      audioCallback_ok_spec cap s d hc hb hw (hall d (List.mem_cons_self d ds))
    obtain ⟨s', hok', hb', hw', hrot'⟩ :=
      ih s1 hb1 hw1 (fun x hx => hall x (List.mem_cons_of_mem _ hx))
    refine ⟨s', ?_, hb', hw', ?_⟩
    · rw [writeSeq, hok]
      exact hok'
    · rw [hrot', hrot, List.flatten_cons,
        lastN_lastN_append cap _ _ (by rw [List.length_append, ringContents_length s (by omega), hb]; omega),
        List.append_assoc]

theorem ringContents_initState (cap : ℕ) :
    ringContents (initState cap) = List.replicate cap (0 : ℚ) := by
  simp [ringContents, initState]

theorem initState_buffer_length (cap : ℕ) : (initState cap).buffer.length = cap :=
  List.length_replicate cap 0

theorem initState_writeIndex (cap : ℕ) : (initState cap).writeIndex = 0 := rfl

/-- C1: for every sequence of `audio_callback` writes totalling
`capacity + k` frames with `k < capacity` (each call writing at most
`capacity` samples), every write succeeds and the ring contents afterwards
— read in ring order from the write cursor — are exactly the last
`capacity` samples written, in order.  In particular, with
`capacity = 1000`, writing 600 zeros and then 600 ones leaves a state
from which `get_recent_audio` for 1000 samples (10 s at 100 Hz) returns
400 zeros followed by 600 ones, in that order. -/
theorem C1_wraparound_last_capacity (cap k : ℕ) (ws : List (List ℚ))
    (hc : 0 < cap) (hmax : ∀ d ∈ ws, d.length ≤ cap)
    (htot : (ws.map List.length).sum = cap + k) (hk : k < cap) :
    (∃ s, writeSeq cap (initState cap) ws = .ok s ∧
      ringContents s = lastN cap ws.flatten) ∧
    (∃ s, writeSeq 1000 (initState 1000)
        [List.replicate 600 (0 : ℚ), List.replicate 600 (1 : ℚ)] = .ok s ∧
      getRecentAudio 1000 100 s 10
        = List.replicate 400 (0 : ℚ) ++ List.replicate 600 (1 : ℚ)) := by
  constructor
  · obtain ⟨s, hok, hb', hw', hrot⟩ := writeSeq_ok_spec cap hc ws (initState cap)
      (initState_buffer_length cap) (by rw [initState_writeIndex]; exact hc) hmax
    refine ⟨s, hok, ?_⟩
    rw [hrot, ringContents_initState,
      lastN_append_right cap _ _ (by rw [List.length_flatten]; omega)]
  · obtain ⟨s, hok, hb', hw', hrot⟩ := writeSeq_ok_spec 1000 (by norm_num)
      [List.replicate 600 (0 : ℚ), List.replicate 600 (1 : ℚ)] (initState 1000)
      (initState_buffer_length 1000) (by rw [initState_writeIndex]; norm_num)
      (by intro d hd
          rcases List.mem_cons.mp hd with rfl | hd2
          · rw [List.length_replicate]; norm_num
          rcases List.mem_cons.mp hd2 with rfl | hd3
          · rw [List.length_replicate]; norm_num
          simp at hd3)
    refine ⟨s, hok, ?_⟩
    have hpy : pyInt (((100 : ℕ) : ℚ) * 10) = ((1000 : ℕ) : ℤ) := by
      rw [show ((100 : ℕ) : ℚ) * 10 = ((1000 : ℕ) : ℚ) by push_cast; norm_num, pyInt_natCast]
    have hn : samplesNeeded 1000 100 10 = ((1000 : ℕ) : ℤ) := by
      simp only [samplesNeeded]
      rw [hpy, if_neg (by norm_num)]
    rw [getRecentAudio_eq_lastN 1000 100 s 10 1000 (by norm_num) hb' hw' hn
      (by norm_num) (by norm_num)]
    have hfull : lastN 1000 (ringContents s) = ringContents s := by
      rw [lastN, ringContents_length s (by omega), hb', Nat.sub_self, List.drop_zero]
    have hflat : ([List.replicate 600 (0 : ℚ), List.replicate 600 (1 : ℚ)]).flatten
        = List.replicate 600 (0 : ℚ) ++ List.replicate 600 (1 : ℚ) := by
      rw [List.flatten_cons, List.flatten_cons, List.flatten_nil, List.append_nil]
    rw [hfull, hrot, ringContents_initState, hflat,
      lastN_append_right 1000 _ _
        (by rw [List.length_append, List.length_replicate, List.length_replicate]; norm_num)]
    rw [lastN, List.length_append, List.length_replicate, List.length_replicate,
      show 600 + 600 - 1000 = 200 by norm_num,
      List.drop_append_eq_append_drop, List.length_replicate,
      show 200 - 600 = 0 by norm_num, List.drop_zero, List.drop_replicate,
      show 600 - 200 = 400 by norm_num]

/-- Witness for C1 at the spec's scenario: capacity 1000, 600 zeros then
600 ones (total 1200 = 1000 + 200 with each call at most 1000 samples),
and `read_recent` of the full buffer returns 400 zeros then 600 ones. -/
theorem C1_wraparound_last_capacity_witness :
    ∃ s, writeSeq 1000 (initState 1000)
        [List.replicate 600 (0 : ℚ), List.replicate 600 (1 : ℚ)] = .ok s ∧
      getRecentAudio 1000 100 s 10
        = List.replicate 400 (0 : ℚ) ++ List.replicate 600 (1 : ℚ) :=
  (C1_wraparound_last_capacity 1000 200
    [List.replicate 600 (0 : ℚ), List.replicate 600 (1 : ℚ)] (by norm_num)
    (by intro d hd
        rcases List.mem_cons.mp hd with rfl | hd2
        · rw [List.length_replicate]; norm_num
        rcases List.mem_cons.mp hd2 with rfl | hd3
        · rw [List.length_replicate]; norm_num
        simp at hd3)
    (by rw [List.map_cons, List.map_cons, List.map_nil, List.length_replicate,
          List.length_replicate, List.sum_cons, List.sum_cons, List.sum_nil]
        norm_num)
    (by norm_num)).2

/-- C7 counterexample: the claim says every write larger than the
capacity is handled by a defined clamping or truncating policy that
leaves the ring state uncorrupted.  On a 4-slot buffer, a 9-frame write
makes the second slice assignment raise a numpy broadcast error
(`end_index - buffer_size = 5 > 4`): the exception escapes the callback
after the first slice assignment has already overwritten
`audio_buffer[write_index:]` with the oldest 4 samples of the block and
before `write_index` is updated.  The resulting state is corrupted: its
ring contents `[1, 2, 3, 4]` are not the last 4 samples written
`[6, 7, 8, 9]`. -/
theorem C7_counterexample_oversized_write :
    audioCallback 4 (initState 4) [1, 2, 3, 4, 5, 6, 7, 8, 9]
        = .err ⟨[1, 2, 3, 4], 0⟩ ∧
      ringContents ⟨[1, 2, 3, 4], 0⟩ ≠ lastN 4 [1, 2, 3, 4, 5, 6, 7, 8, 9] := by
  decide

/-- C7 amended: the code has no clamping or truncating policy for writes
larger than the capacity.  A write of `frames > capacity` samples
completes only when `write_index + frames ≤ 2 * capacity`, in which case
the buffer still holds exactly `capacity` samples and the cursor lands in
`[0, capacity)`; when `write_index + frames > 2 * capacity` the second
slice assignment raises a broadcast error that escapes the callback,
leaving the tail region `[write_index, capacity)` already overwritten
with the oldest part of the block and the cursor unchanged. -/
theorem C7_oversized_write (cap : ℕ) (s : RingState) (d : List ℚ)
    (hc : 0 < cap) (hb : s.buffer.length = cap) (hw : s.writeIndex < cap)
    (hn : cap < d.length) :
    (s.writeIndex + d.length ≤ 2 * cap →
      ∃ s', audioCallback cap s d = .ok s' ∧ s'.buffer.length = cap ∧
        s'.writeIndex < cap) ∧
    (2 * cap < s.writeIndex + d.length →
      audioCallback cap s d
        = .err ⟨listSetRange s.buffer s.writeIndex (d.take (cap - s.writeIndex)),
            s.writeIndex⟩) := by
  constructor
  · intro hle
    refine ⟨⟨listSetRange (listSetRange s.buffer s.writeIndex
        (d.take (cap - s.writeIndex))) 0 (d.drop (cap - s.writeIndex)),
        (s.writeIndex + d.length) % cap⟩,
      by simp only [audioCallback]; rw [if_neg (by omega), if_pos (by omega)],
      ?_, Nat.mod_lt _ hc⟩
    have hfp : (d.take (cap - s.writeIndex)).length = cap - s.writeIndex := by
      rw [List.length_take]
      omega
    have hl1 : (listSetRange s.buffer s.writeIndex
        (d.take (cap - s.writeIndex))).length = cap := by
      rw [listSetRange_length _ _ _ (by omega), hb]
    rw [listSetRange_length _ _ _ (by rw [hl1, List.length_drop]; omega), hl1]
  · intro hgt
    simp only [audioCallback]
    rw [if_neg (by omega), if_neg (by omega)]

/-- Witness for the amended C7: a 3-frame write into a 2-slot buffer from
cursor 0 satisfies `0 + 3 ≤ 4` and succeeds with a well-formed state. -/
theorem C7_oversized_write_witness :
    ∃ s', audioCallback 2 (initState 2) [1, 2, 3] = .ok s' ∧
      s'.buffer.length = 2 ∧ s'.writeIndex < 2 :=
  (C7_oversized_write 2 (initState 2) [1, 2, 3] (by norm_num)
    (initState_buffer_length 2) (by rw [initState_writeIndex]; norm_num)
    (by norm_num)).1 (by rw [initState_writeIndex]; norm_num)
